import Mathlib

/-!
Verification of `seminar_topic_solver.py`.

The script parses a semicolon-delimited preference table into
`(students, topics, preferences)` and feeds a dense cost matrix to the
external solver `scipy.optimize.linear_sum_assignment`, then prints cost
statistics and the per-student assignment.

The embedding below mirrors the Python source:
* a raw table field is abstracted by `Cell`: the empty string, a string
  parsing to the integer `p` under Python's `int`, or any other string
  (which `int` rejects with a `ValueError`);
* the runtime failures of `parse_csv` are gathered in `LoadError`:
  `malformedTable` stands for the `IndexError`s raised on structurally
  broken tables (empty file, empty data row, data row too short for the
  header), `parseError` for the `ValueError` raised by `int` on a
  malformed cell, and the three `invalid…` constructors for the three
  explicit `raise ValueError` statements of the source;
* the external scipy routine is kept abstract: the wrapper
  `solve_assignment_problem` takes the two index lists the routine
  returns and builds the printed report.
-/

/-- A raw field of the input table, as seen by the loader: empty string,
a string that Python's `int` parses to `p`, or any other string. -/
inductive Cell where
  | empty : Cell
  | int (p : Int) : Cell
  | bad : Cell
  deriving DecidableEq, Repr

/-- The runtime failures of `parse_csv` (see module docstring). -/
inductive LoadError where
  | malformedTable
  | parseError
  | invalidLessThanOne
  | invalidDuplicate
  | invalidNotSequence
  deriving DecidableEq, Repr

/-- The spec's `InvalidPreferenceError` class: the three explicit
`raise ValueError` statements of the source. -/
def LoadError.isInvalidPreference : LoadError → Bool
  | .invalidLessThanOne => true
  | .invalidDuplicate => true
  | .invalidNotSequence => true
  | _ => false

/-- Python's `max` on a list of integers (the source only applies it to
non-empty lists). -/
def listMax : List Int → Int
  | [] => 0
  | p :: ps => ps.foldl max p

/-- The body of the first loop of `parse_csv` for one student: walk the
topic indices `ts`, reading `row[t+1]` for each, collecting specified
preferences `(topic, p)` and unspecified topic indices, and performing the
`p < 1` and same-student uniqueness checks of the source. -/
def scanRow (row : List Cell) : List Nat → List (Nat × Int) → List Nat →
    Except LoadError (List (Nat × Int) × List Nat)
  | [], spec, unspec => .ok (spec, unspec)
  | t :: ts, spec, unspec =>
    match row[t + 1]? with
    | none => .error .malformedTable
    | some Cell.empty => scanRow row ts spec (unspec ++ [t])
    | some Cell.bad => .error .parseError
    | some (Cell.int p) =>
      if p < 1 then .error .invalidLessThanOne
      else if p ∈ spec.map Prod.snd then .error .invalidDuplicate
      else scanRow row ts (spec ++ [(t, p)]) unspec

/-- The second loop of `parse_csv` for one student: the Gauss-sum check
that the specified values form a `1..k` sequence. -/
def checkSequence (spec : List (Nat × Int)) : Except LoadError Unit :=
  let preference_sum := (spec.map Prod.snd).sum
  let preference_count : Int := spec.length
  let expected_preference_sum := preference_count * (preference_count + 1) / 2
  if expected_preference_sum ≠ preference_sum then .error .invalidNotSequence
  else .ok ()

/-- The default cost of the third loop of `parse_csv`: `threshold + 1`
when the student specified nothing, otherwise the maximum specified value
plus `threshold`. -/
def preference_value_for_unspecified (threshold : Int)
    (spec : List (Nat × Int)) : Int :=
  if 0 < spec.length then listMax (spec.map Prod.snd) + threshold
  else threshold + 1

/-- The third loop of `parse_csv` for one student: append the unspecified
topics with the default cost to the specified preferences. -/
def merge_preferences (threshold : Int) (spec : List (Nat × Int))
    (unspec : List Nat) : List (Nat × Int) :=
  spec ++ unspec.map (fun t => (t, preference_value_for_unspecified threshold spec))

/-- The student-label extraction `[row[0] for row in fields[1:]]` of the
source: the head of each data row, an `IndexError` on an empty row. -/
def readStudents : List (List Cell) → Except LoadError (List Cell)
  | [] => .ok []
  | row :: rows =>
    match row.head? with
    | none => .error .malformedTable
    | some s =>
      match readStudents rows with
      | .error e => .error e
      | .ok ss => .ok (s :: ss)

/-- The first loop of `parse_csv` over all students, in row order. -/
def scanRows (m : Nat) : List (List Cell) →
    Except LoadError (List (List (Nat × Int) × List Nat))
  | [] => .ok []
  | row :: rows =>
    match scanRow row (List.range m) [] [] with
    | .error e => .error e
    | .ok su =>
      match scanRows m rows with
      | .error e => .error e
      | .ok rest => .ok (su :: rest)

/-- The second loop of `parse_csv` over all students, in row order. -/
def checkAll : List (List (Nat × Int) × List Nat) → Except LoadError Unit
  | [] => .ok ()
  | su :: rest =>
    match checkSequence su.1 with
    | .error e => .error e
    | .ok _ => checkAll rest

/-- The third loop of `parse_csv`: merge each student's preferences and
flatten into `(student, topic, cost)` triples, the student counter
starting at `s`. -/
def buildPreferences (threshold : Int) :
    Nat → List (List (Nat × Int) × List Nat) → List (Nat × Nat × Int)
  | _, [] => []
  | s, su :: rest =>
    (merge_preferences threshold su.1 su.2).map (fun tp => (s, tp.1, tp.2))
      ++ buildPreferences threshold (s + 1) rest

/-- `parse_csv` of the source, on the list of rows produced by the csv
reader: extract topic labels from the header and student labels from the
first column, run the three loops, and return the flat preference list of
`(student, topic, cost)` triples. -/
def parse_csv (threshold : Int) (fields : List (List Cell)) :
    Except LoadError (List Cell × List Cell × List (Nat × Nat × Int)) :=
  match fields with
  | [] => .error .malformedTable
  | header :: dataRows =>
    let topics := header.tail
    match readStudents dataRows with
    | .error e => .error e
    | .ok students =>
      match scanRows topics.length dataRows with
      | .error e => .error e
      | .ok scanned =>
        match checkAll scanned with
        | .error e => .error e
        | .ok _ => .ok (students, topics, buildPreferences threshold 0 scanned)

/-- The dense cost matrix of `solve_assignment_problem`: start from
`np.zeros` and write each preference triple in order (a later triple for
the same pair would overwrite an earlier one, as in the source). -/
def cost_matrix (preferences : List (Nat × Nat × Int)) (i j : Nat) : Int :=
  preferences.foldl (fun acc x => if x.1 = i ∧ x.2.1 = j then x.2.2 else acc) 0

/-- The printed output of `solve_assignment_problem`: total cost, average
cost, whether the quality warning line is printed, and the matched
(student index, topic index) pairs reported as assignment lines. -/
structure Report where
  total_cost : Int
  average_cost : ℚ
  warning : Bool
  assignment : List (Nat × Nat)
  deriving DecidableEq, Repr

instance {ε α : Type} [DecidableEq ε] [DecidableEq α] : DecidableEq (Except ε α) :=
  fun a b =>
    match a, b with
    | .error x, .error y =>
      if h : x = y then .isTrue (by rw [h])
      else .isFalse (fun hc => h (by injection hc))
    | .error _, .ok _ => .isFalse (fun hc => Except.noConfusion hc)
    | .ok _, .error _ => .isFalse (fun hc => Except.noConfusion hc)
    | .ok x, .ok y =>
      if h : x = y then .isTrue (by rw [h])
      else .isFalse (fun hc => h (by injection hc))

/-- `solve_assignment_problem` of the source, with the output
`(row_indices, col_indices)` of the external scipy routine passed in:
build the cost matrix, sum the matched cells, compute the average, decide
the warning, and list the assignment lines. -/
def solve_assignment_problem (threshold : Int) (students : List Cell)
    (preferences : List (Nat × Nat × Int))
    (row_indices col_indices : List Nat) : Report :=
  let M := cost_matrix preferences
  let matched := List.zip row_indices col_indices
  let total_cost := (matched.map (fun ij => M ij.1 ij.2)).sum
  let average_cost : ℚ := (total_cost : ℚ) / (students.length : ℚ)
  { total_cost := total_cost
    average_cost := average_cost
    warning := decide ((threshold : ℚ) < average_cost)
    assignment := matched }

/-- The whole program after command-line parsing: `parse_csv` followed by
`solve_assignment_problem`, the external routine abstracted as a function
from the cost matrix and its dimensions to the two index lists. -/
def runProgram (threshold : Int) (fields : List (List Cell))
    (solver : (Nat → Nat → Int) → Nat → Nat → List Nat × List Nat) :
    Except LoadError Report :=
  (parse_csv threshold fields).map (fun stp =>
    let rc := solver (cost_matrix stp.2.2) stp.1.length stp.2.1.length
    solve_assignment_problem threshold stp.1 stp.2.2 rc.1 rc.2)

/-- The specified preferences that a successful scan of `row` over the
topic indices `ts` collects: `(t, p)` for each index whose cell holds the
integer `p`, in column order. -/
def specOf (row : List Cell) (ts : List Nat) : List (Nat × Int) :=
  ts.filterMap (fun t =>
    match row[t + 1]? with
    | some (Cell.int p) => some (t, p)
    | _ => none)

/-- The unspecified topic indices of a row: those whose cell is empty. -/
def unspecOf (row : List Cell) (ts : List Nat) : List Nat :=
  ts.filter (fun t => row[t + 1]? = some Cell.empty)

/-- The specified preference values of a row, in column order. -/
def valsOf (row : List Cell) (ts : List Nat) : List Int :=
  (specOf row ts).map Prod.snd

/-- The conditions under which one data row passes every per-row check of
`parse_csv` for a table with `m` topics: the row is non-empty, covers all
topic columns with cells that are empty or integers, its values are at
least 1 and pairwise distinct, and the Gauss-sum check passes. -/
def rowOk (m : Nat) (row : List Cell) : Prop :=
  row ≠ [] ∧
  (∀ t, t < m → ∃ c, row[t + 1]? = some c ∧ c ≠ Cell.bad) ∧
  (∀ v ∈ valsOf row (List.range m), 1 ≤ v) ∧
  (valsOf row (List.range m)).Nodup ∧
  checkSequence (specOf row (List.range m)) = .ok ()

/-- Whether an optional cell holds an integer. -/
def isIntCell : Option Cell → Bool
  | some (Cell.int _) => true
  | _ => false

theorem specOf_cons_of_empty {row : List Cell} {t : Nat} {ts : List Nat}
    (h : row[t + 1]? = some Cell.empty) :
    specOf row (t :: ts) = specOf row ts := by
  simp [specOf, List.filterMap_cons, h]

theorem specOf_cons_of_none {row : List Cell} {t : Nat} {ts : List Nat}
    (h : row[t + 1]? = none) :
    specOf row (t :: ts) = specOf row ts := by
  simp [specOf, List.filterMap_cons, h]

theorem specOf_cons_of_bad {row : List Cell} {t : Nat} {ts : List Nat}
    (h : row[t + 1]? = some Cell.bad) :
    specOf row (t :: ts) = specOf row ts := by
  simp [specOf, List.filterMap_cons, h]

theorem specOf_cons_of_int {row : List Cell} {t : Nat} {ts : List Nat} {p : Int}
    (h : row[t + 1]? = some (Cell.int p)) :
    specOf row (t :: ts) = (t, p) :: specOf row ts := by
  simp [specOf, List.filterMap_cons, h]

theorem unspecOf_cons_of_empty {row : List Cell} {t : Nat} {ts : List Nat}
    (h : row[t + 1]? = some Cell.empty) :
    unspecOf row (t :: ts) = t :: unspecOf row ts := by
  simp [unspecOf, List.filter_cons, h]

theorem unspecOf_cons_of_int {row : List Cell} {t : Nat} {ts : List Nat} {p : Int}
    (h : row[t + 1]? = some (Cell.int p)) :
    unspecOf row (t :: ts) = unspecOf row ts := by
  simp [unspecOf, List.filter_cons, h]

/-- Characterization of a successful scan of one row: all scanned cells
exist and are not malformed, the collected values are at least 1,
pairwise distinct, and distinct from the values already accumulated, and
the outputs extend the accumulators with `specOf` and `unspecOf`. -/
theorem scanRow_eq_ok_iff (row : List Cell) (ts : List Nat)
    (spec : List (Nat × Int)) (unspec : List Nat)
    (S : List (Nat × Int)) (U : List Nat) :
    scanRow row ts spec unspec = .ok (S, U) ↔
      ((∀ t ∈ ts, ∃ c, row[t + 1]? = some c ∧ c ≠ Cell.bad) ∧
       (∀ v ∈ valsOf row ts, 1 ≤ v) ∧
       (valsOf row ts).Nodup ∧
       (∀ v ∈ valsOf row ts, v ∉ spec.map Prod.snd) ∧
       S = spec ++ specOf row ts ∧ U = unspec ++ unspecOf row ts) := by
  induction ts generalizing spec unspec with
  | nil =>
    simp only [scanRow, specOf, unspecOf, valsOf, List.filterMap_nil,
      List.filter_nil, List.map_nil, List.append_nil, List.not_mem_nil,
      false_implies, implies_true, List.nodup_nil, true_and,
      Except.ok.injEq, Prod.mk.injEq]
    constructor
    · rintro ⟨h1, h2⟩
      exact ⟨h1.symm, h2.symm⟩
    · rintro ⟨h1, h2⟩
      exact ⟨h1.symm, h2.symm⟩
  | cons t ts ih =>
    cases hc : row[t + 1]? with
    | none =>
      simp only [scanRow, hc]
      constructor
      · rintro h; exact absurd h (by simp)
      · rintro ⟨hcell, -⟩
        obtain ⟨c, hc', -⟩ := hcell t (by simp)
        rw [hc] at hc'
        exact absurd hc' (by simp)
    | some c =>
      cases c with
      | empty =>
        simp only [scanRow, hc]
        rw [ih]
        rw [specOf_cons_of_empty hc, unspecOf_cons_of_empty hc]
        simp only [valsOf, specOf_cons_of_empty hc]
        constructor
        · rintro ⟨hcell, hge, hnd, hdisj, hS, hU⟩
          refine ⟨?_, hge, hnd, hdisj, hS, by simpa using hU⟩
          intro t' ht'
          rcases List.mem_cons.mp ht' with rfl | ht'
          · exact ⟨Cell.empty, hc, by simp⟩
          · exact hcell t' ht'
        · rintro ⟨hcell, hge, hnd, hdisj, hS, hU⟩
          exact ⟨fun t' ht' => hcell t' (List.mem_cons_of_mem _ ht'),
            hge, hnd, hdisj, hS, by simpa using hU⟩
      | bad =>
        simp only [scanRow, hc]
        constructor
        · rintro h; exact absurd h (by simp)
        · rintro ⟨hcell, -⟩
          obtain ⟨c, hc', hne⟩ := hcell t (by simp)
          rw [hc] at hc'
          injection hc' with hc'
          exact (hne hc'.symm).elim
      | int p =>
        simp only [scanRow, hc]
        by_cases hp1 : p < 1
        · rw [if_pos hp1]
          constructor
          · rintro h; exact absurd h (by simp)
          · rintro ⟨-, hge, -⟩
            have : (1 : Int) ≤ p := by
              apply hge
              simp [valsOf, specOf_cons_of_int hc]
            omega
        · rw [if_neg hp1]
          by_cases hdup : p ∈ spec.map Prod.snd
          · rw [if_pos hdup]
            constructor
            · rintro h; exact absurd h (by simp)
            · rintro ⟨-, -, -, hdisj, -⟩
              refine absurd hdup (hdisj p ?_)
              simp [valsOf, specOf_cons_of_int hc]
          · rw [if_neg hdup]
            rw [ih]
            simp only [valsOf, specOf_cons_of_int hc, List.map_cons,
              List.map_append, List.mem_cons, List.nodup_cons,
              unspecOf_cons_of_int hc]
            constructor
            · rintro ⟨hcell, hge, hnd, hdisj, hS, hU⟩
              have hpmem : ∀ v ∈ (specOf row ts).map Prod.snd, v ∉ spec.map Prod.snd ∧ v ≠ p := by
                intro v hv
                have := hdisj v hv
                simp only [List.mem_append] at this
                constructor
                · intro hv'; exact this (Or.inl hv')
                · intro hv'; apply this; right; simp [hv']
              refine ⟨?_, ?_, ⟨?_, hnd⟩, ?_, by simpa [List.append_assoc] using hS, hU⟩
              · intro t' ht'
                rcases ht' with rfl | ht'
                · exact ⟨Cell.int p, hc, by simp⟩
                · exact hcell t' ht'
              · rintro v (rfl | hv)
                · omega
                · exact hge v hv
              · intro hmem
                exact (hpmem p hmem).2 rfl
              · rintro v (rfl | hv)
                · exact hdup
                · exact (hpmem v hv).1
            · rintro ⟨hcell, hge, ⟨hpnot, hnd⟩, hdisj, hS, hU⟩
              refine ⟨fun t' ht' => hcell t' (Or.inr ht'),
                fun v hv => hge v (Or.inr hv), hnd, ?_,
                by simpa [List.append_assoc] using hS, hU⟩
              intro v hv
              simp only [List.map_nil, List.mem_append, List.mem_cons,
                List.not_mem_nil, or_false]
              rintro (hv' | rfl)
              · exact hdisj v (Or.inr hv) hv'
              · exact hpnot hv

/-- The student-label pass succeeds exactly when every data row is
non-empty, and then returns the row heads. -/
theorem readStudents_eq_ok_iff (rows : List (List Cell)) (ss : List Cell) :
    readStudents rows = .ok ss ↔
      (∀ row ∈ rows, row ≠ []) ∧ ss = rows.filterMap List.head? := by
  induction rows generalizing ss with
  | nil =>
    simp only [readStudents, List.filterMap_nil, List.not_mem_nil,
      false_implies, implies_true, true_and, Except.ok.injEq]
    exact ⟨fun h => h.symm, fun h => h.symm⟩
  | cons row rows ih =>
    cases row with
    | nil => simp [readStudents]
    | cons a as =>
      simp only [readStudents, List.head?_cons]
      cases hrec : readStudents rows with
      | error e =>
        constructor
        · intro h; exact absurd h (by simp)
        · rintro ⟨hne, -⟩
          have h2 := (ih (rows.filterMap List.head?)).mpr
            ⟨fun r hr => hne r (List.mem_cons_of_mem _ hr), rfl⟩
          rw [hrec] at h2
          exact absurd h2 (by simp)
      | ok ss' =>
        obtain ⟨hne', hss'⟩ := (ih ss').mp hrec
        simp only [Except.ok.injEq]
        constructor
        · rintro rfl
          refine ⟨?_, by simp [List.filterMap_cons, hss']⟩
          intro r hr
          rcases List.mem_cons.mp hr with rfl | hr
          · simp
          · exact hne' r hr
        · rintro ⟨-, hss⟩
          rw [hss]
          simp [List.filterMap_cons, hss']

/-- The first loop over all students succeeds exactly when every row
scans successfully, and then collects each row's `specOf`/`unspecOf`. -/
theorem scanRows_eq_ok_iff (m : Nat) (rows : List (List Cell))
    (sc : List (List (Nat × Int) × List Nat)) :
    scanRows m rows = .ok sc ↔
      (∀ row ∈ rows, scanRow row (List.range m) [] [] =
        .ok (specOf row (List.range m), unspecOf row (List.range m))) ∧
      sc = rows.map (fun row =>
        (specOf row (List.range m), unspecOf row (List.range m))) := by
  induction rows generalizing sc with
  | nil =>
    simp only [scanRows, List.map_nil, List.not_mem_nil, false_implies,
      implies_true, true_and, Except.ok.injEq]
    exact ⟨fun h => h.symm, fun h => h.symm⟩
  | cons row rows ih =>
    simp only [scanRows]
    cases hscan : scanRow row (List.range m) [] [] with
    | error e =>
      constructor
      · intro h; exact absurd h (by simp)
      · rintro ⟨hok, -⟩
        have := hok row (by simp)
        rw [hscan] at this
        exact absurd this (by simp)
    | ok su =>
      have hsu : su = (specOf row (List.range m), unspecOf row (List.range m)) := by
        obtain ⟨-, -, -, -, hS, hU⟩ := (scanRow_eq_ok_iff row (List.range m) [] [] su.1 su.2).mp
          (by rw [← hscan])
        cases su
        simp only [List.nil_append] at hS hU
        simp [hS, hU]
      cases hrec : scanRows m rows with
      | error e =>
        constructor
        · intro h; exact absurd h (by simp)
        · rintro ⟨hok, -⟩
          have h2 := (ih (rows.map (fun row =>
            (specOf row (List.range m), unspecOf row (List.range m))))).mpr
            ⟨fun r hr => hok r (List.mem_cons_of_mem _ hr), rfl⟩
          rw [hrec] at h2
          exact absurd h2 (by simp)
      | ok rest =>
        obtain ⟨hok', hrest⟩ := (ih rest).mp hrec
        simp only [Except.ok.injEq]
        constructor
        · rintro rfl
          refine ⟨?_, by simp [hsu, hrest]⟩
          intro r hr
          rcases List.mem_cons.mp hr with rfl | hr
          · rw [hscan, hsu]
          · exact hok' r hr
        · rintro ⟨-, hsc⟩
          rw [hsc]
          simp [hsu, hrest]

/-- The Gauss-sum check succeeds exactly when the sum of the specified
values equals `k(k+1)/2` for `k` the number of specified values. -/
theorem checkSequence_eq_ok_iff (spec : List (Nat × Int)) :
    checkSequence spec = .ok () ↔
      ((spec.length : Int) * (spec.length + 1) / 2 = (spec.map Prod.snd).sum) := by
  unfold checkSequence
  by_cases h : (spec.length : Int) * (spec.length + 1) / 2 = (spec.map Prod.snd).sum
  · simp [h]
  · simp [h]

/-- The second loop over all students succeeds exactly when every
student's Gauss-sum check passes. -/
theorem checkAll_eq_ok_iff (sc : List (List (Nat × Int) × List Nat)) :
    checkAll sc = .ok () ↔ ∀ su ∈ sc, checkSequence su.1 = .ok () := by
  induction sc with
  | nil => simp [checkAll]
  | cons su rest ih =>
    simp only [checkAll]
    cases hcs : checkSequence su.1 with
    | error e =>
      constructor
      · intro h; exact absurd h (by simp)
      · intro hok
        have := hok su (by simp)
        rw [hcs] at this
        exact absurd this (by simp)
    | ok u =>
      cases u
      rw [ih]
      constructor
      · intro hok r hr
        rcases List.mem_cons.mp hr with rfl | hr
        · exact hcs
        · exact hok r hr
      · intro hok r hr
        exact hok r (List.mem_cons_of_mem _ hr)

/-- Full characterization of a successful parse: the file has a header,
every data row passes `rowOk` for the header's topic count, and the
output is the row heads, the header tail, and the merged preference
list. -/
theorem parse_csv_eq_ok_iff (threshold : Int) (header : List Cell)
    (rows : List (List Cell))
    (out : List Cell × List Cell × List (Nat × Nat × Int)) :
    parse_csv threshold (header :: rows) = .ok out ↔
      (∀ row ∈ rows, rowOk header.tail.length row) ∧
      out = (rows.filterMap List.head?, header.tail,
        buildPreferences threshold 0
          (rows.map (fun row => (specOf row (List.range header.tail.length),
            unspecOf row (List.range header.tail.length))))) := by
  have hrowOk : ∀ row, rowOk header.tail.length row ↔
      (row ≠ [] ∧
       scanRow row (List.range header.tail.length) [] [] =
         .ok (specOf row (List.range header.tail.length),
           unspecOf row (List.range header.tail.length)) ∧
       checkSequence (specOf row (List.range header.tail.length)) = .ok ()) := by
    intro row
    rw [rowOk, scanRow_eq_ok_iff]
    constructor
    · rintro ⟨h1, h2, h3, h4, h5⟩
      exact ⟨h1, ⟨fun t ht => h2 t (List.mem_range.mp ht), h3, h4, by simp, rfl, rfl⟩, h5⟩
    · rintro ⟨h1, ⟨h2, h3, h4, -, -, -⟩, h5⟩
      exact ⟨h1, fun t ht => h2 t (List.mem_range.mpr ht), h3, h4, h5⟩
  cases hrs : readStudents rows with
  | error e =>
    have key : parse_csv threshold (header :: rows) = .error e := by
      simp only [parse_csv, hrs]
    rw [key]
    constructor
    · intro h; exact absurd h (by simp)
    · rintro ⟨hok, -⟩
      have h2 := (readStudents_eq_ok_iff rows (rows.filterMap List.head?)).mpr
        ⟨fun r hr => ((hrowOk r).mp (hok r hr)).1, rfl⟩
      rw [hrs] at h2
      exact absurd h2 (by simp)
  | ok students =>
    obtain ⟨hne, hstu⟩ := (readStudents_eq_ok_iff rows students).mp hrs
    cases hsc : scanRows header.tail.length rows with
    | error e =>
      have key : parse_csv threshold (header :: rows) = .error e := by
        simp only [parse_csv, hrs, hsc]
      rw [key]
      constructor
      · intro h; exact absurd h (by simp)
      · rintro ⟨hok, -⟩
        have h2 := (scanRows_eq_ok_iff header.tail.length rows
          (rows.map (fun row => (specOf row (List.range header.tail.length),
            unspecOf row (List.range header.tail.length))))).mpr
          ⟨fun r hr => ((hrowOk r).mp (hok r hr)).2.1, rfl⟩
        rw [hsc] at h2
        exact absurd h2 (by simp)
    | ok scanned =>
      obtain ⟨hscan, hscanned⟩ := (scanRows_eq_ok_iff _ rows scanned).mp hsc
      cases hca : checkAll scanned with
      | error e =>
        have key : parse_csv threshold (header :: rows) = .error e := by
          simp only [parse_csv, hrs, hsc, hca]
        rw [key]
        constructor
        · intro h; exact absurd h (by simp)
        · rintro ⟨hok, -⟩
          have h2 := (checkAll_eq_ok_iff scanned).mpr ?_
          · rw [hca] at h2
            exact absurd h2 (by simp)
          · intro su hsu
            rw [hscanned] at hsu
            obtain ⟨r, hr, rfl⟩ := List.mem_map.mp hsu
            exact ((hrowOk r).mp (hok r hr)).2.2
      | ok u =>
        cases u
        have key : parse_csv threshold (header :: rows) =
            .ok (students, header.tail, buildPreferences threshold 0 scanned) := by
          simp only [parse_csv, hrs, hsc, hca]
        rw [key]
        have hck := (checkAll_eq_ok_iff scanned).mp hca
        simp only [Except.ok.injEq]
        constructor
        · rintro rfl
          refine ⟨?_, by rw [hstu, hscanned]⟩
          intro r hr
          refine (hrowOk r).mpr ⟨hne r hr, hscan r hr, ?_⟩
          have hmem : (specOf r (List.range header.tail.length),
              unspecOf r (List.range header.tail.length)) ∈ scanned := by
            rw [hscanned]
            exact List.mem_map.mpr ⟨r, hr, rfl⟩
          exact hck _ hmem
        · rintro ⟨-, hout⟩
          rw [hout, hstu, hscanned]

/-- Membership in the specified preferences of a row. -/
theorem mem_specOf {row : List Cell} {ts : List Nat} {t : Nat} {p : Int} :
    (t, p) ∈ specOf row ts ↔ t ∈ ts ∧ row[t + 1]? = some (Cell.int p) := by
  unfold specOf
  rw [List.mem_filterMap]
  constructor
  · rintro ⟨a, ha, hf⟩
    cases hc : row[a + 1]? with
    | none => rw [hc] at hf; simp at hf
    | some c =>
      cases c with
      | empty => rw [hc] at hf; simp at hf
      | bad => rw [hc] at hf; simp at hf
      | int q =>
        rw [hc] at hf
        simp only [Option.some.injEq, Prod.mk.injEq] at hf
        obtain ⟨rfl, rfl⟩ := hf
        exact ⟨ha, hc⟩
  · rintro ⟨ht, hc⟩
    refine ⟨t, ht, ?_⟩
    rw [hc]

/-- Membership in the unspecified topics of a row. -/
theorem mem_unspecOf {row : List Cell} {ts : List Nat} {t : Nat} :
    t ∈ unspecOf row ts ↔ t ∈ ts ∧ row[t + 1]? = some Cell.empty := by
  unfold unspecOf
  rw [List.mem_filter]
  simp

/-- The topic indices of the specified preferences, as a filter. -/
theorem specOf_map_fst (row : List Cell) (ts : List Nat) :
    (specOf row ts).map Prod.fst = ts.filter (fun t => isIntCell row[t + 1]?) := by
  induction ts with
  | nil => rfl
  | cons t ts ih =>
    rw [List.filter_cons]
    cases hc : row[t + 1]? with
    | none =>
      rw [specOf_cons_of_none hc, ih]
      simp [isIntCell, hc]
    | some c =>
      cases c with
      | empty =>
        rw [specOf_cons_of_empty hc, ih]
        simp [isIntCell, hc]
      | bad =>
        rw [specOf_cons_of_bad hc, ih]
        simp [isIntCell, hc]
      | int p =>
        rw [specOf_cons_of_int hc, List.map_cons, ih]
        simp [isIntCell, hc]

/-- On a row whose cells are all present and well-formed, the unspecified
topics are exactly the non-integer ones. -/
theorem unspecOf_eq_filter_not (row : List Cell) (ts : List Nat)
    (hcell : ∀ t ∈ ts, ∃ c, row[t + 1]? = some c ∧ c ≠ Cell.bad) :
    unspecOf row ts = ts.filter (fun t => !isIntCell row[t + 1]?) := by
  unfold unspecOf
  apply List.filter_congr
  intro t ht
  obtain ⟨c, hc, hne⟩ := hcell t ht
  cases c with
  | empty => simp [hc, isIntCell]
  | bad => exact absurd rfl hne
  | int p => simp [hc, isIntCell]

/-- Membership in the merged preference list of one student. -/
theorem mem_merge_preferences {threshold : Int} {spec : List (Nat × Int)}
    {unspec : List Nat} {t : Nat} {c : Int} :
    (t, c) ∈ merge_preferences threshold spec unspec ↔
      (t, c) ∈ spec ∨
      (t ∈ unspec ∧ c = preference_value_for_unspecified threshold spec) := by
  unfold merge_preferences
  rw [List.mem_append]
  constructor
  · rintro (h | h)
    · exact Or.inl h
    · obtain ⟨a, ha, heq⟩ := List.mem_map.mp h
      rw [Prod.mk.injEq] at heq
      exact Or.inr ⟨heq.1 ▸ ha, heq.2.symm⟩
  · rintro (h | ⟨ht, rfl⟩)
    · exact Or.inl h
    · exact Or.inr (List.mem_map.mpr ⟨t, ht, rfl⟩)

/-- The topic indices of the merged preference list. -/
theorem merge_preferences_map_fst (threshold : Int) (spec : List (Nat × Int))
    (unspec : List Nat) :
    (merge_preferences threshold spec unspec).map Prod.fst =
      spec.map Prod.fst ++ unspec := by
  simp only [merge_preferences, List.map_append, List.map_map]
  rw [show (Prod.fst ∘ fun t =>
    (t, preference_value_for_unspecified threshold spec)) = id from rfl, List.map_id]

/-- On a well-formed row, the merged preference list covers the topic
indices exactly once: its first components are a permutation of `ts`. -/
theorem merge_fst_perm (threshold : Int) (row : List Cell) (ts : List Nat)
    (hcell : ∀ t ∈ ts, ∃ c, row[t + 1]? = some c ∧ c ≠ Cell.bad) :
    ((merge_preferences threshold (specOf row ts) (unspecOf row ts)).map
      Prod.fst).Perm ts := by
  rw [merge_preferences_map_fst, specOf_map_fst, unspecOf_eq_filter_not row ts hcell]
  exact List.filter_append_perm _ ts

/-- Membership in the flattened preference list: one block per student,
student indices counted from `s0`. -/
theorem mem_buildPreferences {threshold : Int} {s0 : Nat}
    {scanned : List (List (Nat × Int) × List Nat)} {x : Nat × Nat × Int} :
    x ∈ buildPreferences threshold s0 scanned ↔
      ∃ i, ∃ h : i < scanned.length, x.1 = s0 + i ∧
        (x.2.1, x.2.2) ∈ merge_preferences threshold scanned[i].1 scanned[i].2 := by
  induction scanned generalizing s0 with
  | nil => simp [buildPreferences]
  | cons su rest ih =>
    simp only [buildPreferences, List.mem_append, List.mem_map]
    constructor
    · rintro (⟨tp, htp, heq⟩ | h)
      · refine ⟨0, by simp, ?_, ?_⟩
        · rw [← heq]
          simp
        · rw [← heq]
          simpa using htp
      · obtain ⟨i, hi, hx, hmem⟩ := ih.mp h
        refine ⟨i + 1, by simpa using hi, by omega, ?_⟩
        simpa using hmem
    · rintro ⟨i, hi, hx, hmem⟩
      cases i with
      | zero =>
        left
        obtain ⟨a, b, c⟩ := x
        simp only at hx hmem
        refine ⟨(b, c), by simpa using hmem, ?_⟩
        have hs : s0 = a := by omega
        rw [hs]
      | succ i =>
        right
        apply ih.mpr
        refine ⟨i, by simpa using hi, by omega, ?_⟩
        simpa using hmem

theorem init_le_foldl_max (ps : List Int) (p : Int) : p ≤ ps.foldl max p := by
  induction ps generalizing p with
  | nil => simp
  | cons q qs ih => exact le_trans (le_max_left p q) (ih (max p q))

theorem mem_le_foldl_max (ps : List Int) (p x : Int) (h : x ∈ ps) :
    x ≤ ps.foldl max p := by
  induction ps generalizing p with
  | nil => simp at h
  | cons q qs ih =>
    rw [List.foldl_cons]
    rcases List.mem_cons.mp h with rfl | h
    · exact le_trans (le_max_right p x) (init_le_foldl_max qs (max p x))
    · exact ih (max p q) h

theorem foldl_max_mem (ps : List Int) (p : Int) :
    ps.foldl max p = p ∨ ps.foldl max p ∈ ps := by
  induction ps generalizing p with
  | nil => left; rfl
  | cons q qs ih =>
    rw [List.foldl_cons]
    rcases ih (max p q) with h | h
    · rw [h]
      rcases le_total q p with hle | hle
      · left; exact max_eq_left hle
      · right
        rw [max_eq_right hle]
        exact List.mem_cons_self q qs
    · right; exact List.mem_cons_of_mem q h

/-- Every element of a list is at most its Python `max`. -/
theorem le_listMax (l : List Int) (x : Int) (h : x ∈ l) : x ≤ listMax l := by
  cases l with
  | nil => simp at h
  | cons p ps =>
    rw [listMax]
    rcases List.mem_cons.mp h with rfl | h
    · exact init_le_foldl_max ps x
    · exact mem_le_foldl_max ps p x h

/-- The Python `max` of a non-empty list is one of its elements. -/
theorem listMax_mem (l : List Int) (hne : l ≠ []) : listMax l ∈ l := by
  cases l with
  | nil => exact absurd rfl hne
  | cons p ps =>
    rw [listMax]
    rcases foldl_max_mem ps p with h | h
    · rw [h]; exact List.mem_cons_self p ps
    · exact List.mem_cons_of_mem p h

/-- Twice the Gauss sum over the integer interval `[1, n]`. -/
theorem sum_Icc_one_mul_two (n : Nat) :
    2 * (Finset.Icc (1 : Int) (n : Int)).sum id = (n : Int) * ((n : Int) + 1) := by
  induction n with
  | zero =>
    rw [Nat.cast_zero, Finset.Icc_eq_empty (by norm_num)]
    simp
  | succ n ih =>
    have hins : Finset.Icc (1 : Int) ((n : Int) + 1) =
        insert ((n : Int) + 1) (Finset.Icc (1 : Int) (n : Int)) := by
      ext v
      simp only [Finset.mem_Icc, Finset.mem_insert]
      omega
    have hnot : ((n : Int) + 1) ∉ Finset.Icc (1 : Int) (n : Int) := by
      simp only [Finset.mem_Icc]
      omega
    push_cast
    rw [hins, Finset.sum_insert hnot, id]
    nlinarith [ih]

/-- `k` pairwise-distinct integers that are all at least 1 sum to at
least `k(k+1)/2`, with equality exactly for the set `{1, …, k}`. -/
theorem gauss_min_sum (n : Nat) (s : Finset Int) (hcard : s.card = n)
    (hge : ∀ v ∈ s, 1 ≤ v) :
    (n : Int) * ((n : Int) + 1) ≤ 2 * s.sum id ∧
      (2 * s.sum id = (n : Int) * ((n : Int) + 1) → s = Finset.Icc 1 (n : Int)) := by
  induction n generalizing s with
  | zero =>
    have hs : s = ∅ := Finset.card_eq_zero.mp hcard
    subst hs
    refine ⟨by simp, fun h => ?_⟩
    rw [Nat.cast_zero, Finset.Icc_eq_empty (by norm_num)]
  | succ n ih =>
    have hne : s.Nonempty := Finset.card_pos.mp (by omega)
    have hMmem : s.max' hne ∈ s := s.max'_mem hne
    have hub : ∀ v ∈ s, v ≤ s.max' hne := fun v hv => s.le_max' v hv
    have hM1 : 1 ≤ s.max' hne := hge _ hMmem
    have hsub : s ⊆ Finset.Icc 1 (s.max' hne) := by
      intro v hv
      simp only [Finset.mem_Icc]
      exact ⟨hge v hv, hub v hv⟩
    have hIcc_card : (Finset.Icc (1 : Int) (s.max' hne)).card = (s.max' hne).toNat := by
      rw [Int.card_Icc]
      congr 1
      ring
    have hMn : (n : Int) + 1 ≤ s.max' hne := by
      have hcard_le : s.card ≤ (Finset.Icc (1 : Int) (s.max' hne)).card :=
        Finset.card_le_card hsub
      rw [hcard, hIcc_card] at hcard_le
      omega
    have hcard' : (s.erase (s.max' hne)).card = n := by
      rw [Finset.card_erase_of_mem hMmem, hcard]
      omega
    have hge' : ∀ v ∈ s.erase (s.max' hne), 1 ≤ v :=
      fun v hv => hge v (Finset.mem_of_mem_erase hv)
    obtain ⟨hlow, heq⟩ := ih (s.erase (s.max' hne)) hcard' hge'
    have hsum : s.sum id = (s.erase (s.max' hne)).sum id + s.max' hne := by
      rw [← Finset.sum_erase_add s id hMmem]
      simp
    constructor
    · push_cast
      nlinarith [hlow, hMn, hsum]
    · intro h
      push_cast at h
      have hMle : s.max' hne ≤ (n : Int) + 1 := by nlinarith [hlow, hsum, h]
      have hMeq : s.max' hne = (n : Int) + 1 := le_antisymm hMle hMn
      have hs'sum : 2 * (s.erase (s.max' hne)).sum id = (n : Int) * ((n : Int) + 1) := by
        rw [hsum] at h
        ring_nf at h ⊢
        nlinarith [h, hMeq]
      have hs'_eq := heq hs'sum
      have hins : s = insert (s.max' hne) (s.erase (s.max' hne)) :=
        (Finset.insert_erase hMmem).symm
      rw [hins, hs'_eq, hMeq]
      ext v
      simp only [Finset.mem_insert, Finset.mem_Icc]
      push_cast
      omega

/-- For a duplicate-free list of integers all at least 1, the Gauss-sum
test of the source holds exactly when the values are `{1, …, k}` for `k`
the length of the list. -/
theorem gauss_list_iff (l : List Int) (hnd : l.Nodup) (hge : ∀ v ∈ l, 1 ≤ v) :
    ((l.length : Int) * ((l.length : Int) + 1) / 2 = l.sum ↔
      ∀ v : Int, v ∈ l ↔ 1 ≤ v ∧ v ≤ (l.length : Int)) := by
  have hcard : l.toFinset.card = l.length := List.toFinset_card_of_nodup hnd
  have hsum : l.toFinset.sum id = l.sum := by
    rw [List.sum_toFinset _ hnd]
    simp
  have hdvd : (2 : Int) ∣ (l.length : Int) * ((l.length : Int) + 1) :=
    (Int.even_mul_succ_self (l.length : Int)).two_dvd
  have hge' : ∀ v ∈ l.toFinset, 1 ≤ v := fun v hv => hge v (List.mem_toFinset.mp hv)
  obtain ⟨hlow, heqc⟩ := gauss_min_sum l.length l.toFinset hcard hge'
  have key : ∀ a b : Int, 2 ∣ a → (a / 2 = b ↔ 2 * b = a) := by
    intro a b h
    omega
  rw [key _ _ hdvd]
  constructor
  · intro h
    have h2 : 2 * l.toFinset.sum id = (l.length : Int) * ((l.length : Int) + 1) := by
      rw [hsum]
      linarith [h]
    have hset := heqc h2
    intro v
    rw [← List.mem_toFinset, hset, Finset.mem_Icc]
  · intro h
    have hset : l.toFinset = Finset.Icc 1 (l.length : Int) := by
      ext v
      rw [List.mem_toFinset, Finset.mem_Icc]
      exact h v
    have hg := sum_Icc_one_mul_two l.length
    rw [← hset, hsum] at hg
    linarith

theorem readStudents_error_eq (rows : List (List Cell)) (e : LoadError)
    (h : readStudents rows = .error e) : e = .malformedTable := by
  induction rows with
  | nil => simp [readStudents] at h
  | cons row rest ih =>
    cases row with
    | nil =>
      simp only [readStudents, List.head?_nil] at h
      injection h with h
      exact h.symm
    | cons a as =>
      simp only [readStudents, List.head?_cons] at h
      cases hrec : readStudents rest with
      | error e' =>
        rw [hrec] at h
        injection h with h
        subst h
        exact ih hrec
      | ok ss =>
        rw [hrec] at h
        simp at h

theorem scanRows_error_mem (m : Nat) (rows : List (List Cell)) (e : LoadError)
    (h : scanRows m rows = .error e) :
    ∃ row ∈ rows, scanRow row (List.range m) [] [] = .error e := by
  induction rows with
  | nil => simp [scanRows] at h
  | cons row rest ih =>
    simp only [scanRows] at h
    cases hscan : scanRow row (List.range m) [] [] with
    | error e' =>
      rw [hscan] at h
      injection h with h
      subst h
      exact ⟨row, by simp, hscan⟩
    | ok su =>
      rw [hscan] at h
      cases hrec : scanRows m rest with
      | error e' =>
        rw [hrec] at h
        injection h with h
        subst h
        obtain ⟨r, hr, hre⟩ := ih hrec
        exact ⟨r, List.mem_cons_of_mem _ hr, hre⟩
      | ok rest' =>
        rw [hrec] at h
        simp at h

theorem checkSequence_error_eq (spec : List (Nat × Int)) (e : LoadError)
    (h : checkSequence spec = .error e) : e = .invalidNotSequence := by
  unfold checkSequence at h
  by_cases hc : ((spec.length : Int) * ((spec.length : Int) + 1) / 2 ≠ (spec.map Prod.snd).sum)
  · rw [if_pos hc] at h
    injection h with h
    exact h.symm
  · rw [if_neg hc] at h
    simp at h

theorem checkAll_error_eq (sc : List (List (Nat × Int) × List Nat)) (e : LoadError)
    (h : checkAll sc = .error e) : e = .invalidNotSequence := by
  induction sc with
  | nil => simp [checkAll] at h
  | cons su rest ih =>
    simp only [checkAll] at h
    cases hcs : checkSequence su.1 with
    | error e' =>
      rw [hcs] at h
      injection h with h
      subst h
      exact checkSequence_error_eq su.1 _ hcs
    | ok u =>
      rw [hcs] at h
      exact ih h

/-- A failing scan of a row whose cells are all present and well-formed
can only be one of the explicit preference-validation errors. -/
theorem scanRow_error_goodcells (row : List Cell) (ts : List Nat)
    (spec : List (Nat × Int)) (unspec : List Nat) (e : LoadError)
    (hcell : ∀ t ∈ ts, ∃ c, row[t + 1]? = some c ∧ c ≠ Cell.bad)
    (h : scanRow row ts spec unspec = .error e) :
    e.isInvalidPreference = true := by
  induction ts generalizing spec unspec with
  | nil => simp [scanRow] at h
  | cons t ts ih =>
    obtain ⟨c, hc, hne⟩ := hcell t (by simp)
    have hcell' : ∀ t' ∈ ts, ∃ c, row[t' + 1]? = some c ∧ c ≠ Cell.bad :=
      fun t' ht' => hcell t' (List.mem_cons_of_mem _ ht')
    cases c with
    | empty =>
      simp only [scanRow, hc] at h
      exact ih spec (unspec ++ [t]) hcell' h
    | bad => exact absurd rfl hne
    | int p =>
      simp only [scanRow, hc] at h
      by_cases hp1 : p < 1
      · rw [if_pos hp1] at h
        injection h with h
        subst h
        rfl
      · rw [if_neg hp1] at h
        by_cases hdup : p ∈ spec.map Prod.snd
        · rw [if_pos hdup] at h
          injection h with h
          subst h
          rfl
        · rw [if_neg hdup] at h
          exact ih (spec ++ [(t, p)]) unspec hcell' h

/-- A failing scan of a row whose cells are all missing or empty can only
be the structural `IndexError`. -/
theorem scanRow_error_empties (row : List Cell) (ts : List Nat)
    (spec : List (Nat × Int)) (unspec : List Nat) (e : LoadError)
    (hcell : ∀ t ∈ ts, row[t + 1]? = none ∨ row[t + 1]? = some Cell.empty)
    (h : scanRow row ts spec unspec = .error e) :
    e = .malformedTable := by
  induction ts generalizing spec unspec with
  | nil => simp [scanRow] at h
  | cons t ts ih =>
    have hcell' : ∀ t' ∈ ts, row[t' + 1]? = none ∨ row[t' + 1]? = some Cell.empty :=
      fun t' ht' => hcell t' (List.mem_cons_of_mem _ ht')
    rcases hcell t (by simp) with hc | hc
    · simp only [scanRow, hc] at h
      injection h with h
      exact h.symm
    · simp only [scanRow, hc] at h
      exact ih spec (unspec ++ [t]) hcell' h

/-- A failing scan of a row whose cells are all present and either empty
or malformed can only be the integer `ParseError`. -/
theorem scanRow_error_empty_or_bad (row : List Cell) (ts : List Nat)
    (spec : List (Nat × Int)) (unspec : List Nat) (e : LoadError)
    (hcell : ∀ t ∈ ts, row[t + 1]? = some Cell.empty ∨ row[t + 1]? = some Cell.bad)
    (h : scanRow row ts spec unspec = .error e) :
    e = .parseError := by
  induction ts generalizing spec unspec with
  | nil => simp [scanRow] at h
  | cons t ts ih =>
    have hcell' : ∀ t' ∈ ts, row[t' + 1]? = some Cell.empty ∨ row[t' + 1]? = some Cell.bad :=
      fun t' ht' => hcell t' (List.mem_cons_of_mem _ ht')
    rcases hcell t (by simp) with hc | hc
    · simp only [scanRow, hc] at h
      exact ih spec (unspec ++ [t]) hcell' h
    · simp only [scanRow, hc] at h
      injection h with h
      exact h.symm

theorem parse_csv_error_of_readStudents (threshold : Int) (header : List Cell)
    (rows : List (List Cell)) (e : LoadError)
    (h : readStudents rows = .error e) :
    parse_csv threshold (header :: rows) = .error e := by
  simp only [parse_csv, h]

theorem parse_csv_error_of_scanRows (threshold : Int) (header : List Cell)
    (rows : List (List Cell)) (ss : List Cell) (e : LoadError)
    (hok : readStudents rows = .ok ss)
    (h : scanRows header.tail.length rows = .error e) :
    parse_csv threshold (header :: rows) = .error e := by
  simp only [parse_csv, hok, h]

theorem parse_csv_error_of_checkAll (threshold : Int) (header : List Cell)
    (rows : List (List Cell)) (ss : List Cell)
    (sc : List (List (Nat × Int) × List Nat)) (e : LoadError)
    (hok : readStudents rows = .ok ss)
    (hsc : scanRows header.tail.length rows = .ok sc)
    (h : checkAll sc = .error e) :
    parse_csv threshold (header :: rows) = .error e := by
  simp only [parse_csv, hok, hsc, h]

/-- The wrapper adds no error handling: the program fails exactly when
the loader fails, with the loader's error. -/
theorem runProgram_eq_error_iff (threshold : Int) (fields : List (List Cell))
    (solver : (Nat → Nat → Int) → Nat → Nat → List Nat × List Nat) (e : LoadError) :
    runProgram threshold fields solver = .error e ↔
      parse_csv threshold fields = .error e := by
  unfold runProgram
  cases parse_csv threshold fields <;> simp [Except.map]

/-- Data rows of an accepted table have at least the header's length. -/
theorem parse_ok_row_length (threshold : Int) (header : List Cell)
    (rows : List (List Cell))
    (out : List Cell × List Cell × List (Nat × Nat × Int))
    (hok : parse_csv threshold (header :: rows) = .ok out) :
    ∀ row ∈ rows, header.length ≤ row.length := by
  obtain ⟨hrows, -⟩ := (parse_csv_eq_ok_iff threshold header rows out).mp hok
  intro row hr
  obtain ⟨hne, hcell, -⟩ := hrows row hr
  cases hm : header.tail.length with
  | zero =>
    have h1 : header.length ≤ 1 := by
      cases header with
      | nil => simp
      | cons a as => simp_all
    have h2 : 1 ≤ row.length := by
      cases row with
      | nil => exact absurd rfl hne
      | cons b bs => simp
    omega
  | succ n =>
    obtain ⟨c, hc, -⟩ := hcell n (by omega)
    have hlt : n + 1 < row.length := by
      by_contra hge
      rw [List.getElem?_eq_none (by omega)] at hc
      exact Option.noConfusion hc
    have hh : header.length = n + 2 := by
      cases header with
      | nil => simp at hm
      | cons a as =>
        simp at hm ⊢
        omega
    omega

theorem length_filterMap_head (rows : List (List Cell))
    (h : ∀ row ∈ rows, row ≠ []) :
    (rows.filterMap List.head?).length = rows.length := by
  induction rows with
  | nil => rfl
  | cons row rest ih =>
    cases row with
    | nil => exact absurd rfl (h [] (by simp))
    | cons a as =>
      simp only [List.filterMap_cons, List.head?_cons, List.length_cons]
      rw [ih (fun r hr => h r (List.mem_cons_of_mem _ hr))]

/-- The triples of the flattened preference list that concern student
`s0 + i` are exactly the `i`-th student's block. -/
theorem filter_buildPreferences_length (threshold : Int) (s0 : Nat)
    (scanned : List (List (Nat × Int) × List Nat)) (i j : Nat)
    (hi : i < scanned.length) :
    ((buildPreferences threshold s0 scanned).filter
      (fun x => x.1 = s0 + i ∧ x.2.1 = j)).length =
    ((merge_preferences threshold scanned[i].1 scanned[i].2).filter
      (fun tp => tp.1 = j)).length := by
  induction scanned generalizing s0 i with
  | nil => simp at hi
  | cons su rest ih =>
    rw [buildPreferences, List.filter_append, List.length_append]
    cases i with
    | zero =>
      have hrest : ((buildPreferences threshold (s0 + 1) rest).filter
          (fun x => x.1 = s0 + 0 ∧ x.2.1 = j)).length = 0 := by
        rw [List.length_eq_zero]
        rw [List.filter_eq_nil_iff]
        intro x hx
        obtain ⟨i', hi', hx1, -⟩ := mem_buildPreferences.mp hx
        simp only [decide_eq_true_eq, not_and]
        intro hx1'
        omega
      have hblock : (((merge_preferences threshold su.1 su.2).map
          (fun tp => (s0, tp.1, tp.2))).filter
          (fun x => x.1 = s0 + 0 ∧ x.2.1 = j)).length =
          ((merge_preferences threshold su.1 su.2).filter
            (fun tp => tp.1 = j)).length := by
        rw [List.filter_map, List.length_map]
        congr 1
        apply List.filter_congr
        intro tp htp
        simp [Function.comp]
      rw [hrest, hblock]
      simp
    | succ i' =>
      have hblock : (((merge_preferences threshold su.1 su.2).map
          (fun tp => (s0, tp.1, tp.2))).filter
          (fun x => x.1 = s0 + (i' + 1) ∧ x.2.1 = j)).length = 0 := by
        rw [List.length_eq_zero, List.filter_eq_nil_iff]
        intro x hx
        obtain ⟨tp, htp, rfl⟩ := List.mem_map.mp hx
        simp only [decide_eq_true_eq, not_and]
        intro hx1
        omega
      have harith : s0 + (i' + 1) = (s0 + 1) + i' := by omega
      rw [hblock, harith, ih (s0 + 1) i' (by simpa using hi)]
      simp

/-- On a row whose cells are all present and well-formed, the merged
preference list mentions each topic `j < m` exactly once. -/
theorem filter_merge_topic_length (threshold : Int) (row : List Cell) (m j : Nat)
    (hcell : ∀ t < m, ∃ c, row[t + 1]? = some c ∧ c ≠ Cell.bad) (hj : j < m) :
    ((merge_preferences threshold (specOf row (List.range m))
      (unspecOf row (List.range m))).filter (fun tp => tp.1 = j)).length = 1 := by
  have hperm := merge_fst_perm threshold row (List.range m)
    (fun t ht => hcell t (List.mem_range.mp ht))
  have hfil := (hperm.filter (fun a => a == j)).length_eq
  have hcnt : ((List.range m).filter (fun a => a == j)).length = 1 := by
    rw [← List.countP_eq_length_filter]
    rw [show (List.range m).countP (fun a => a == j) = (List.range m).count j from rfl]
    exact List.count_eq_one_of_mem (List.nodup_range m) (List.mem_range.mpr hj)
  rw [List.filter_map, List.length_map] at hfil
  rw [hcnt] at hfil
  rw [← hfil]
  congr 1

/-- C1: on every table the loader accepts, a student with at least one
specified preference gets cost (maximum specified value) + threshold on
every unspecified topic, and a student with no specified preference gets
cost threshold + 1 on every topic, uniformly. -/
theorem C1_default_costs (threshold : Int) (header : List Cell)
    (rows : List (List Cell)) (students topics : List Cell)
    (prefs : List (Nat × Nat × Int))
    (hok : parse_csv threshold (header :: rows) = .ok (students, topics, prefs))
    (s : Nat) (hs : s < rows.length) :
    (valsOf rows[s] (List.range topics.length) ≠ [] →
      ∀ t c, (s, t, c) ∈ prefs → rows[s][t + 1]? = some Cell.empty →
        c = listMax (valsOf rows[s] (List.range topics.length)) + threshold) ∧
    (valsOf rows[s] (List.range topics.length) = [] →
      ∀ t c, (s, t, c) ∈ prefs → c = threshold + 1) := by
  obtain ⟨hrows, hout⟩ := (parse_csv_eq_ok_iff threshold header rows _).mp hok
  simp only [Prod.mk.injEq] at hout
  obtain ⟨hstu, htop, hpref⟩ := hout
  subst htop
  have hget : ∀ t c, (s, t, c) ∈ prefs →
      (t, c) ∈ merge_preferences threshold
        (specOf rows[s] (List.range header.tail.length))
        (unspecOf rows[s] (List.range header.tail.length)) := by
    intro t c hmem
    rw [hpref] at hmem
    obtain ⟨i, hi, hx1, hx2⟩ := mem_buildPreferences.mp hmem
    simp only [List.length_map] at hi
    simp only at hx1
    have hieq : i = s := by omega
    subst hieq
    simp only [List.getElem_map] at hx2
    exact hx2
  constructor
  · intro hne t c hmem hcell
    rcases mem_merge_preferences.mp (hget t c hmem) with hsp | ⟨-, rfl⟩
    · have hc := (mem_specOf.mp hsp).2
      rw [hc] at hcell
      simp at hcell
    · have hlen : 0 < (specOf rows[s] (List.range header.tail.length)).length := by
        by_contra hzero
        push_neg at hzero
        have h0 : specOf rows[s] (List.range header.tail.length) = [] :=
          List.length_eq_zero.mp (by omega)
        apply hne
        unfold valsOf
        rw [h0]
        rfl
      unfold preference_value_for_unspecified
      rw [if_pos hlen]
      rfl
  · intro hnil t c hmem
    have h0 : specOf rows[s] (List.range header.tail.length) = [] := by
      unfold valsOf at hnil
      exact List.map_eq_nil_iff.mp hnil
    rcases mem_merge_preferences.mp (hget t c hmem) with hsp | ⟨-, rfl⟩
    · rw [h0] at hsp
      simp at hsp
    · unfold preference_value_for_unspecified
      rw [h0]
      simp

theorem C1_default_costs_witness :
    (valsOf [Cell.bad, Cell.empty, Cell.int 1, Cell.empty] (List.range 3) ≠ [] →
      ∀ t c, (1, t, c) ∈
          ([(0, 0, 1), (0, 1, 2), (0, 2, 3), (1, 1, 1), (1, 0, 4), (1, 2, 4)] :
            List (Nat × Nat × Int)) →
        [Cell.bad, Cell.empty, Cell.int 1, Cell.empty][t + 1]? = some Cell.empty →
        c = listMax (valsOf [Cell.bad, Cell.empty, Cell.int 1, Cell.empty]
          (List.range 3)) + 3) ∧
    (valsOf [Cell.bad, Cell.empty, Cell.int 1, Cell.empty] (List.range 3) = [] →
      ∀ t c, (1, t, c) ∈
          ([(0, 0, 1), (0, 1, 2), (0, 2, 3), (1, 1, 1), (1, 0, 4), (1, 2, 4)] :
            List (Nat × Nat × Int)) → c = 3 + 1) :=
  C1_default_costs 3 [Cell.bad, Cell.bad, Cell.bad, Cell.bad]
    [[Cell.bad, Cell.int 1, Cell.int 2, Cell.int 3],
     [Cell.bad, Cell.empty, Cell.int 1, Cell.empty]]
    [Cell.bad, Cell.bad] [Cell.bad, Cell.bad, Cell.bad]
    [(0, 0, 1), (0, 1, 2), (0, 2, 3), (1, 1, 1), (1, 0, 4), (1, 2, 4)]
    (by rfl) 1 (by decide)

/-- C2: for a student whose per-cell checks passed (the scan of the row
succeeded), the Gauss-sum check raises the not-a-sequence error exactly
when S ≠ k(k+1)/2, and together with the per-cell checks it accepts
exactly the students whose specified values are the set {1, …, k}. -/
theorem C2_sequence_check (row : List Cell) (m : Nat)
    (spec : List (Nat × Int)) (unspec : List Nat)
    (hscan : scanRow row (List.range m) [] [] = .ok (spec, unspec)) :
    (checkSequence spec = .error .invalidNotSequence ↔
      (spec.length : Int) * ((spec.length : Int) + 1) / 2 ≠ (spec.map Prod.snd).sum) ∧
    (checkSequence spec = .ok () ↔
      ∀ v : Int, v ∈ spec.map Prod.snd ↔ 1 ≤ v ∧ v ≤ (spec.length : Int)) := by
  obtain ⟨-, hge, hnd, -, hS, -⟩ :=
    (scanRow_eq_ok_iff row (List.range m) [] [] spec unspec).mp hscan
  rw [List.nil_append] at hS
  have hvals : spec.map Prod.snd = valsOf row (List.range m) := by
    rw [hS]
    rfl
  constructor
  · unfold checkSequence
    by_cases h :
        (spec.length : Int) * ((spec.length : Int) + 1) / 2 ≠ (spec.map Prod.snd).sum
    · rw [if_pos h]
      exact ⟨fun _ => h, fun _ => rfl⟩
    · rw [if_neg h]
      exact ⟨fun hx => Except.noConfusion hx, fun hx => absurd hx h⟩
  · rw [checkSequence_eq_ok_iff]
    have hg := gauss_list_iff (spec.map Prod.snd)
      (by rw [hvals]; exact hnd) (by rw [hvals]; exact hge)
    rw [List.length_map] at hg
    exact hg

theorem C2_sequence_check_witness :
    (checkSequence [(0, 2), (1, 1)] = .error .invalidNotSequence ↔
      ((([(0, 2), (1, 1)] : List (Nat × Int)).length : Int) *
        ((([(0, 2), (1, 1)] : List (Nat × Int)).length : Int) + 1) / 2 ≠
        (([(0, 2), (1, 1)] : List (Nat × Int)).map Prod.snd).sum)) ∧
    (checkSequence [(0, 2), (1, 1)] = .ok () ↔
      ∀ v : Int, v ∈ ([(0, 2), (1, 1)] : List (Nat × Int)).map Prod.snd ↔
        1 ≤ v ∧ v ≤ (([(0, 2), (1, 1)] : List (Nat × Int)).length : Int)) :=
  C2_sequence_check [Cell.bad, Cell.int 2, Cell.int 1] 2 [(0, 2), (1, 1)] [] (by rfl)

/-- C3: a specified cell whose value is below 1, or whose value repeats
an earlier value of the same student, makes loading fail — with one of
the preference-validation errors when the table is otherwise
well-formed — while the same value appearing for two different students
is accepted (the checks are scoped per student). -/
theorem C3_per_cell_checks (threshold : Int) (header : List Cell) :
    (∀ rows : List (List Cell),
      (∀ row ∈ rows, row ≠ []) →
      (∀ row ∈ rows, ∀ t, t < header.tail.length →
        ∃ c, row[t + 1]? = some c ∧ c ≠ Cell.bad) →
      (∃ row ∈ rows, (∃ v ∈ valsOf row (List.range header.tail.length), v < 1) ∨
        ¬(valsOf row (List.range header.tail.length)).Nodup) →
      ∃ e, parse_csv threshold (header :: rows) = .error e ∧
        e.isInvalidPreference = true) ∧
    (∀ r1 r2 out1 out2,
      parse_csv threshold [header, r1] = .ok out1 →
      parse_csv threshold [header, r2] = .ok out2 →
      ∃ out, parse_csv threshold [header, r1, r2] = .ok out) := by
  constructor
  · intro rows hne hcells hviol
    have hrs : readStudents rows = .ok (rows.filterMap List.head?) :=
      (readStudents_eq_ok_iff rows _).mpr ⟨hne, rfl⟩
    cases hsc : scanRows header.tail.length rows with
    | error e =>
      refine ⟨e, parse_csv_error_of_scanRows threshold header rows _ e hrs hsc, ?_⟩
      obtain ⟨row, hr, hre⟩ := scanRows_error_mem _ rows e hsc
      exact scanRow_error_goodcells row (List.range header.tail.length) [] [] e
        (fun t ht => hcells row hr t (List.mem_range.mp ht)) hre
    | ok scanned =>
      exfalso
      obtain ⟨row, hr, hv⟩ := hviol
      obtain ⟨hscan, -⟩ := (scanRows_eq_ok_iff _ rows scanned).mp hsc
      obtain ⟨-, hge, hnd, -, -, -⟩ :=
        (scanRow_eq_ok_iff row (List.range header.tail.length) [] [] _ _).mp
          (hscan row hr)
      rcases hv with ⟨v, hvm, hvlt⟩ | hnd'
      · have := hge v hvm
        omega
      · exact hnd' hnd
  · intro r1 r2 out1 out2 h1 h2
    obtain ⟨hok1, -⟩ := (parse_csv_eq_ok_iff threshold header [r1] out1).mp h1
    obtain ⟨hok2, -⟩ := (parse_csv_eq_ok_iff threshold header [r2] out2).mp h2
    refine ⟨_, (parse_csv_eq_ok_iff threshold header [r1, r2] _).mpr ⟨?_, rfl⟩⟩
    intro r hr
    rcases List.mem_cons.mp hr with rfl | hr
    · exact hok1 r (by simp)
    · rcases List.mem_cons.mp hr with rfl | hr
      · exact hok2 r (by simp)
      · simp at hr

theorem C3_per_cell_checks_witness :
    (∃ e, parse_csv 3 [[Cell.bad, Cell.bad], [Cell.bad, Cell.int 0]] = .error e ∧
      e.isInvalidPreference = true) ∧
    (∃ out, parse_csv 3 [[Cell.bad, Cell.bad], [Cell.bad, Cell.int 1],
      [Cell.bad, Cell.int 1]] = .ok out) := by
  constructor
  · apply (C3_per_cell_checks 3 [Cell.bad, Cell.bad]).1 [[Cell.bad, Cell.int 0]]
    · intro row hrow
      simp only [List.mem_singleton] at hrow
      subst hrow
      simp
    · intro row hrow t ht
      simp only [List.mem_singleton] at hrow
      subst hrow
      have ht' : t < 1 := by simpa using ht
      have ht0 : t = 0 := by omega
      subst ht0
      exact ⟨Cell.int 0, rfl, by simp⟩
    · refine ⟨[Cell.bad, Cell.int 0], by simp, Or.inl ⟨0, ?_, by norm_num⟩⟩
      decide
  · exact (C3_per_cell_checks 3 [Cell.bad, Cell.bad]).2 [Cell.bad, Cell.int 1]
      [Cell.bad, Cell.int 1] ([Cell.bad], [Cell.bad], [(0, 0, 1)])
      ([Cell.bad], [Cell.bad], [(0, 0, 1)]) (by rfl) (by rfl)

/-- C4: every accepted table yields exactly one preference triple per
(student index, topic index) pair: the cost matrix built from the
returned list is fully populated, with no missing and no duplicate
entries. -/
theorem C4_exactly_one_triple (threshold : Int) (header : List Cell)
    (rows : List (List Cell)) (students topics : List Cell)
    (prefs : List (Nat × Nat × Int))
    (hok : parse_csv threshold (header :: rows) = .ok (students, topics, prefs))
    (i j : Nat) (hi : i < students.length) (hj : j < topics.length) :
    (prefs.filter (fun x => x.1 = i ∧ x.2.1 = j)).length = 1 := by
  obtain ⟨hrows, hout⟩ := (parse_csv_eq_ok_iff threshold header rows _).mp hok
  simp only [Prod.mk.injEq] at hout
  obtain ⟨hstu, htop, hpref⟩ := hout
  subst htop
  have hlen : students.length = rows.length := by
    rw [hstu]
    exact length_filterMap_head rows (fun r hr => (hrows r hr).1)
  have hi' : i < rows.length := by omega
  have hmap : i < (rows.map (fun row =>
      (specOf row (List.range header.tail.length),
       unspecOf row (List.range header.tail.length)))).length := by
    simpa using hi'
  rw [hpref]
  have hfb := filter_buildPreferences_length threshold 0 _ i j hmap
  simp only [Nat.zero_add] at hfb
  rw [hfb]
  simp only [List.getElem_map]
  obtain ⟨-, hcells, -, -, -⟩ := hrows rows[i] (List.getElem_mem hi')
  exact filter_merge_topic_length threshold rows[i] header.tail.length j hcells hj

theorem C4_exactly_one_triple_witness :
    (List.filter (fun x => x.1 = 0 ∧ x.2.1 = 2)
      ([(0, 0, 1), (0, 1, 2), (0, 2, 3), (1, 1, 1), (1, 0, 4), (1, 2, 4)] :
        List (Nat × Nat × Int))).length = 1 :=
  C4_exactly_one_triple 3 [Cell.bad, Cell.bad, Cell.bad, Cell.bad]
    [[Cell.bad, Cell.int 1, Cell.int 2, Cell.int 3],
     [Cell.bad, Cell.empty, Cell.int 1, Cell.empty]]
    [Cell.bad, Cell.bad] [Cell.bad, Cell.bad, Cell.bad]
    [(0, 0, 1), (0, 1, 2), (0, 2, 3), (1, 1, 1), (1, 0, 4), (1, 2, 4)]
    (by rfl) 0 2 (by decide) (by decide)

/-- C5: with more students than topics the loader accepts the table and
the wrapper has no error path at all; on the documented behavior of the
external routine for a rectangular matrix (a matching of size
min(n, m) — here one pair, e.g. row 0 to column 0), the program prints a
report with a single assignment line, leaving one student unassigned,
instead of failing with a reported error. -/
theorem C5_partial_assignment_bug :
    parse_csv 3 [[Cell.bad, Cell.bad], [Cell.bad, Cell.int 1], [Cell.bad, Cell.int 1]] =
      .ok ([Cell.bad, Cell.bad], [Cell.bad], [(0, 0, 1), (1, 0, 1)]) ∧
    (∀ solver, (runProgram 3 [[Cell.bad, Cell.bad], [Cell.bad, Cell.int 1],
      [Cell.bad, Cell.int 1]] solver).isOk = true) ∧
    runProgram 3 [[Cell.bad, Cell.bad], [Cell.bad, Cell.int 1], [Cell.bad, Cell.int 1]]
      (fun _ _ _ => ([0], [0])) =
      .ok { total_cost := 1, average_cost := 1 / 2, warning := false,
            assignment := [(0, 0)] } := by
  refine ⟨by rfl, fun solver => rfl, ?_⟩
  have hred : runProgram 3 [[Cell.bad, Cell.bad], [Cell.bad, Cell.int 1],
      [Cell.bad, Cell.int 1]] (fun _ _ _ => ([0], [0])) =
      .ok (solve_assignment_problem 3 [Cell.bad, Cell.bad]
        [(0, 0, 1), (1, 0, 1)] [0] [0]) := by rfl
  rw [hred, Except.ok.injEq]
  unfold solve_assignment_problem
  have htot : ((List.zip [0] [0]).map
      (fun ij => cost_matrix [(0, 0, 1), (1, 0, 1)] ij.1 ij.2)).sum = (1 : Int) := by rfl
  rw [Report.mk.injEq]
  refine ⟨htot, ?_, ?_, rfl⟩
  · show ((1 : Int) : ℚ) / ((2 : Nat) : ℚ) = 1 / 2
    norm_num
  · show decide ((3 : ℚ) < ((1 : Int) : ℚ) / ((2 : Nat) : ℚ)) = false
    rw [decide_eq_false_iff_not]
    norm_num

/-- C7: the printed report's total cost is the sum of the matched cells,
its average cost is the total divided by the number of students, the
warning line is printed exactly when the average exceeds the threshold,
and the assignment lines are reported regardless of the warning. -/
theorem C7_report_statistics (threshold : Int) (students : List Cell)
    (preferences : List (Nat × Nat × Int)) (row_indices col_indices : List Nat)
    (_hne : students ≠ []) :
    (solve_assignment_problem threshold students preferences row_indices
      col_indices).total_cost =
      ((List.zip row_indices col_indices).map
        (fun ij => cost_matrix preferences ij.1 ij.2)).sum ∧
    (solve_assignment_problem threshold students preferences row_indices
      col_indices).average_cost =
      (((solve_assignment_problem threshold students preferences row_indices
        col_indices).total_cost : ℚ) / (students.length : ℚ)) ∧
    ((solve_assignment_problem threshold students preferences row_indices
      col_indices).warning = true ↔
      (threshold : ℚ) <
        (solve_assignment_problem threshold students preferences row_indices
          col_indices).average_cost) ∧
    (solve_assignment_problem threshold students preferences row_indices
      col_indices).assignment = List.zip row_indices col_indices := by
  refine ⟨rfl, rfl, ?_, rfl⟩
  simp [solve_assignment_problem]

theorem C7_report_statistics_witness :
    (solve_assignment_problem 3 [Cell.bad] [(0, 0, 1)] [0] [0]).total_cost =
      ((List.zip [0] [0]).map
        (fun ij => cost_matrix [(0, 0, 1)] ij.1 ij.2)).sum ∧
    (solve_assignment_problem 3 [Cell.bad] [(0, 0, 1)] [0] [0]).average_cost =
      (((solve_assignment_problem 3 [Cell.bad] [(0, 0, 1)] [0] [0]).total_cost : ℚ) /
        (([Cell.bad] : List Cell).length : ℚ)) ∧
    ((solve_assignment_problem 3 [Cell.bad] [(0, 0, 1)] [0] [0]).warning = true ↔
      ((3 : Int) : ℚ) <
        (solve_assignment_problem 3 [Cell.bad] [(0, 0, 1)] [0] [0]).average_cost) ∧
    (solve_assignment_problem 3 [Cell.bad] [(0, 0, 1)] [0] [0]).assignment =
      List.zip [0] [0] :=
  C7_report_statistics 3 [Cell.bad] [(0, 0, 1)] [0] [0] (by decide)

/-- C6 counterexample: a data row longer than the header — a header/row
length mismatch — is accepted, with the extra cell silently ignored,
rather than failing with the structural error. -/
theorem C6_counterexample :
    parse_csv 3 [[Cell.bad, Cell.bad], [Cell.bad, Cell.int 1, Cell.int 7]] =
      .ok ([Cell.bad], [Cell.bad], [(0, 0, 1)]) ∧
    ([Cell.bad, Cell.int 1, Cell.int 7] : List Cell).length ≠
      ([Cell.bad, Cell.bad] : List Cell).length :=
  ⟨by rfl, by decide⟩

/-- C6 amended: an empty file fails with the structural error before any
solve attempt; a data row shorter than the header always makes loading
fail before any solve attempt (accepted tables never contain one), with
the structural error when the structural problem is in isolation (all
preference cells empty); a malformed-integer cell in an otherwise
structurally sound table with no well-formed integer cells fails with
the parse error; a data row longer than the header, however, is accepted
with the extra cells ignored. -/
theorem C6_structural_errors (threshold : Int)
    (solver : (Nat → Nat → Int) → Nat → Nat → List Nat × List Nat) :
    (runProgram threshold [] solver = .error .malformedTable) ∧
    (∀ header rows out, parse_csv threshold (header :: rows) = .ok out →
      ∀ row ∈ rows, header.length ≤ row.length) ∧
    (∀ header rows, (∀ row ∈ rows, ∀ c ∈ row.tail, c = Cell.empty) →
      (∃ row ∈ rows, row.length < header.length) →
      runProgram threshold (header :: rows) solver = .error .malformedTable) ∧
    (∀ header rows,
      (∀ row ∈ rows, row ≠ [] ∧ header.length ≤ row.length ∧
        ∀ c ∈ row.tail, c = Cell.empty ∨ c = Cell.bad) →
      (∃ row ∈ rows, ∃ t, t < header.tail.length ∧ row[t + 1]? = some Cell.bad) →
      runProgram threshold (header :: rows) solver = .error .parseError) := by
  refine ⟨by rfl, ?_, ?_, ?_⟩
  · exact fun header rows out hok => parse_ok_row_length threshold header rows out hok
  · intro header rows hempty hshort
    rw [runProgram_eq_error_iff]
    cases hrs : readStudents rows with
    | error e =>
      have he := readStudents_error_eq rows e hrs
      subst he
      exact parse_csv_error_of_readStudents threshold header rows _ hrs
    | ok ss =>
      obtain ⟨hne, -⟩ := (readStudents_eq_ok_iff rows ss).mp hrs
      cases hsc : scanRows header.tail.length rows with
      | error e =>
        have he : e = .malformedTable := by
          obtain ⟨row, hrm, hre⟩ := scanRows_error_mem _ rows e hsc
          refine scanRow_error_empties row _ [] [] e ?_ hre
          intro t ht
          cases hc : row[t + 1]? with
          | none => exact Or.inl rfl
          | some c =>
            refine Or.inr ?_
            have hcm : c ∈ row.tail := by
              cases row with
              | nil => simp at hc
              | cons a as =>
                rw [List.getElem?_cons_succ] at hc
                exact List.getElem?_mem hc
            rw [hempty row hrm c hcm]
        subst he
        exact parse_csv_error_of_scanRows threshold header rows ss _ hrs hsc
      | ok scanned =>
        exfalso
        obtain ⟨hscan, -⟩ := (scanRows_eq_ok_iff _ rows scanned).mp hsc
        obtain ⟨row, hrm, hshort'⟩ := hshort
        obtain ⟨hcell, -⟩ :=
          (scanRow_eq_ok_iff row (List.range header.tail.length) [] [] _ _).mp
            (hscan row hrm)
        have hrow1 : 1 ≤ row.length := by
          cases row with
          | nil => exact absurd rfl (hne [] hrm)
          | cons a as => simp
        have hhl : header.length = header.tail.length + 1 := by
          cases header with
          | nil => exact absurd hshort' (by simp)
          | cons a as => simp
        obtain ⟨c, hc, -⟩ := hcell (row.length - 1) (List.mem_range.mpr (by omega))
        rw [List.getElem?_eq_none (by omega)] at hc
        exact Option.noConfusion hc
  · intro header rows hgood hbad
    rw [runProgram_eq_error_iff]
    have hrs : readStudents rows = .ok (rows.filterMap List.head?) :=
      (readStudents_eq_ok_iff rows _).mpr ⟨fun r hr => (hgood r hr).1, rfl⟩
    cases hsc : scanRows header.tail.length rows with
    | error e =>
      have he : e = .parseError := by
        obtain ⟨row, hrm, hre⟩ := scanRows_error_mem _ rows e hsc
        refine scanRow_error_empty_or_bad row _ [] [] e ?_ hre
        intro t ht
        obtain ⟨hrne, hlen, htail⟩ := hgood row hrm
        have ht' : t < header.tail.length := List.mem_range.mp ht
        have hhl : header.length = header.tail.length + 1 := by
          cases header with
          | nil => exact absurd ht' (by simp)
          | cons a as => simp
        have hlt : t + 1 < row.length := by omega
        cases row with
        | nil => simp at hlt
        | cons a as =>
          have hlt' : t < as.length := by simpa using hlt
          have hc : (a :: as)[t + 1]? = some as[t] := by
            rw [List.getElem?_cons_succ]
            exact List.getElem?_eq_getElem hlt'
          rcases htail as[t] (List.getElem_mem hlt') with h | h
          · left
            rw [hc, h]
          · right
            rw [hc, h]
      subst he
      exact parse_csv_error_of_scanRows threshold header rows _ _ hrs hsc
    | ok scanned =>
      exfalso
      obtain ⟨hscan, -⟩ := (scanRows_eq_ok_iff _ rows scanned).mp hsc
      obtain ⟨row, hrm, t, ht, hbadcell⟩ := hbad
      obtain ⟨hcell, -⟩ :=
        (scanRow_eq_ok_iff row (List.range header.tail.length) [] [] _ _).mp
          (hscan row hrm)
      obtain ⟨c, hc, hcne⟩ := hcell t (List.mem_range.mpr ht)
      rw [hbadcell] at hc
      injection hc with hc
      exact hcne hc.symm

theorem C6_structural_errors_witness :
    (runProgram 3 [] (fun _ _ _ => ([], [])) = .error .malformedTable) ∧
    ([Cell.bad, Cell.bad] : List Cell).length ≤
      ([Cell.bad, Cell.int 1] : List Cell).length ∧
    runProgram 3 [[Cell.bad, Cell.bad], [Cell.bad]] (fun _ _ _ => ([], [])) =
      .error .malformedTable ∧
    runProgram 3 [[Cell.bad, Cell.bad], [Cell.bad, Cell.bad]] (fun _ _ _ => ([], [])) =
      .error .parseError := by
  obtain ⟨h1, h2, h3, h4⟩ := C6_structural_errors 3 (fun _ _ _ => ([], []))
  refine ⟨h1, ?_, ?_, ?_⟩
  · exact h2 [Cell.bad, Cell.bad] [[Cell.bad, Cell.int 1]]
      ([Cell.bad], [Cell.bad], [(0, 0, 1)]) (by rfl) [Cell.bad, Cell.int 1] (by simp)
  · apply h3 [Cell.bad, Cell.bad] [[Cell.bad]]
    · intro row hrow c hc
      simp only [List.mem_singleton] at hrow
      subst hrow
      simp at hc
    · exact ⟨[Cell.bad], by simp, by decide⟩
  · apply h4 [Cell.bad, Cell.bad] [[Cell.bad, Cell.bad]]
    · intro row hrow
      simp only [List.mem_singleton] at hrow
      subst hrow
      refine ⟨by simp, by simp, ?_⟩
      intro c hc
      simp only [List.tail_cons, List.mem_singleton] at hc
      subst hc
      right
      rfl
    · exact ⟨[Cell.bad, Cell.bad], by simp, 0, by simp, by rfl⟩

/-- A row with the same length, the same empty and malformed cells at
the same positions, and a permuted multiset of specified values passes
the per-row checks whenever the original row does. -/
theorem rowOk_of_same_shape (m : Nat) (row row' : List Cell)
    (hlen : row'.length = row.length)
    (hsame : ∀ i, i < row.length →
      ((row[i]? = some Cell.empty ↔ row'[i]? = some Cell.empty) ∧
       (row[i]? = some Cell.bad ↔ row'[i]? = some Cell.bad)))
    (hperm : (valsOf row' (List.range m)).Perm (valsOf row (List.range m)))
    (hok : rowOk m row) : rowOk m row' := by
  obtain ⟨h1, h2, h3, h4, h5⟩ := hok
  refine ⟨?_, ?_, ?_, ?_, ?_⟩
  · intro hnil
    apply h1
    apply List.length_eq_zero.mp
    rw [← hlen, hnil]
    rfl
  · intro t ht
    obtain ⟨c, hc, hcne⟩ := h2 t ht
    have hbound : t + 1 < row.length := by
      by_contra hge
      rw [List.getElem?_eq_none (by omega)] at hc
      exact Option.noConfusion hc
    have hbound' : t + 1 < row'.length := by omega
    refine ⟨row'[t + 1], List.getElem?_eq_getElem hbound', ?_⟩
    intro hbad
    have hb : row'[t + 1]? = some Cell.bad := by
      rw [List.getElem?_eq_getElem hbound', hbad]
    have hbb := ((hsame (t + 1) hbound).2).mpr hb
    rw [hc] at hbb
    injection hbb with hbb
    exact hcne hbb
  · intro v hv
    exact h3 v (hperm.mem_iff.mp hv)
  · exact hperm.nodup_iff.mpr h4
  · rw [checkSequence_eq_ok_iff] at h5 ⊢
    have hlens : (specOf row' (List.range m)).length =
        (specOf row (List.range m)).length := by
      have hl := hperm.length_eq
      simpa [valsOf] using hl
    have hsums : (List.map Prod.snd (specOf row' (List.range m))).sum =
        (List.map Prod.snd (specOf row (List.range m))).sum := hperm.sum_eq
    rw [hlens, hsums]
    exact h5

/-- C8: validation is value-based, not position-based — replacing one
student's row by a row of the same length with empty and malformed cells
at the same positions and the same multiset of specified values never
changes whether the loader accepts the table. -/
theorem C8_value_based (threshold : Int) (header : List Cell)
    (rows : List (List Cell)) (s : Nat) (hs : s < rows.length)
    (row' : List Cell)
    (hlen : row'.length = rows[s].length)
    (hsame : ∀ i, i < rows[s].length →
      ((rows[s][i]? = some Cell.empty ↔ row'[i]? = some Cell.empty) ∧
       (rows[s][i]? = some Cell.bad ↔ row'[i]? = some Cell.bad)))
    (hperm : (valsOf row' (List.range header.tail.length)).Perm
      (valsOf rows[s] (List.range header.tail.length))) :
    ((∃ out, parse_csv threshold (header :: rows) = .ok out) ↔
     (∃ out, parse_csv threshold (header :: rows.set s row') = .ok out)) := by
  have hiff : ∀ rs : List (List Cell),
      ((∃ out, parse_csv threshold (header :: rs) = .ok out) ↔
        ∀ row ∈ rs, rowOk header.tail.length row) := by
    intro rs
    constructor
    · rintro ⟨out, hok⟩
      exact ((parse_csv_eq_ok_iff threshold header rs out).mp hok).1
    · intro h
      exact ⟨_, (parse_csv_eq_ok_iff threshold header rs _).mpr ⟨h, rfl⟩⟩
  rw [hiff, hiff]
  have hsame' : ∀ i, i < row'.length →
      ((row'[i]? = some Cell.empty ↔ rows[s][i]? = some Cell.empty) ∧
       (row'[i]? = some Cell.bad ↔ rows[s][i]? = some Cell.bad)) := by
    intro i hi
    have h := hsame i (by omega)
    exact ⟨h.1.symm, h.2.symm⟩
  constructor
  · intro h r hr
    obtain ⟨i, hi, rfl⟩ := List.mem_iff_getElem.mp hr
    have hi' : i < rows.length := by
      rw [List.length_set] at hi
      exact hi
    rw [List.getElem_set]
    by_cases hsi : s = i
    · rw [if_pos hsi]
      exact rowOk_of_same_shape header.tail.length rows[s] row' hlen hsame hperm
        (h rows[s] (List.getElem_mem hs))
    · rw [if_neg hsi]
      exact h rows[i] (List.getElem_mem hi')
  · intro h r hr
    obtain ⟨i, hi, rfl⟩ := List.mem_iff_getElem.mp hr
    have hib : i < (rows.set s row').length := by
      rw [List.length_set]
      exact hi
    by_cases hsi : i = s
    · subst hsi
      refine rowOk_of_same_shape header.tail.length row' rows[i]
        (by omega) hsame' hperm.symm ?_
      have hset : (rows.set i row')[i] = row' := by
        rw [List.getElem_set]
        rw [if_pos rfl]
      have hmem : row' ∈ rows.set i row' :=
        List.mem_iff_getElem.mpr ⟨i, hib, hset⟩
      exact h row' hmem
    · have hset : (rows.set s row')[i] = rows[i] := by
        rw [List.getElem_set]
        rw [if_neg (fun hh => hsi hh.symm)]
      have hmem : rows[i] ∈ rows.set s row' :=
        List.mem_iff_getElem.mpr ⟨i, hib, hset⟩
      exact h rows[i] hmem

theorem C8_value_based_witness :
    (∃ out, parse_csv 3 [[Cell.bad, Cell.bad, Cell.bad],
      [Cell.bad, Cell.int 1, Cell.int 2]] = .ok out) ↔
    (∃ out, parse_csv 3 [[Cell.bad, Cell.bad, Cell.bad],
      [Cell.bad, Cell.int 2, Cell.int 1]] = .ok out) :=
  C8_value_based 3 [Cell.bad, Cell.bad, Cell.bad]
    [[Cell.bad, Cell.int 1, Cell.int 2]] 0 (by decide)
    [Cell.bad, Cell.int 2, Cell.int 1] (by rfl) (by decide) (by decide)

/-- C9 counterexample: the CLI threshold may be any integer; with
threshold -1 a student with no specified preferences is emitted with
cost 0, which is not positive. -/
theorem C9_counterexample :
    parse_csv (-1) [[Cell.bad, Cell.bad], [Cell.bad, Cell.empty]] =
      .ok ([Cell.bad], [Cell.bad], [(0, 0, 0)]) ∧ ¬((1 : Int) ≤ 0) :=
  ⟨by rfl, by decide⟩

/-- C9 amended: provided the configured threshold is non-negative (it
defaults to 3), every preference triple the loader emits, specified or
defaulted, has positive cost. -/
theorem C9_positive_costs (threshold : Int) (hth : 0 ≤ threshold)
    (header : List Cell) (rows : List (List Cell))
    (out : List Cell × List Cell × List (Nat × Nat × Int))
    (hok : parse_csv threshold (header :: rows) = .ok out) :
    ∀ x ∈ out.2.2, 1 ≤ x.2.2 := by
  obtain ⟨hrows, hout⟩ := (parse_csv_eq_ok_iff threshold header rows out).mp hok
  intro x hx
  rw [hout] at hx
  simp only at hx
  obtain ⟨i, hi, -, hmem⟩ := mem_buildPreferences.mp hx
  simp only [List.length_map] at hi
  simp only [List.getElem_map] at hmem
  have hrowmem : rows[i] ∈ rows := List.getElem_mem hi
  obtain ⟨-, -, hge, -, -⟩ := hrows rows[i] hrowmem
  rcases mem_merge_preferences.mp hmem with hsp | ⟨-, heq⟩
  · apply hge
    exact List.mem_map.mpr ⟨(x.2.1, x.2.2), hsp, rfl⟩
  · rw [heq]
    unfold preference_value_for_unspecified
    by_cases hsp0 : 0 < (specOf rows[i] (List.range header.tail.length)).length
    · rw [if_pos hsp0]
      have hne : (specOf rows[i] (List.range header.tail.length)).map Prod.snd ≠ [] := by
        intro hnil
        rw [List.map_eq_nil_iff] at hnil
        rw [hnil] at hsp0
        simp at hsp0
      have h1 : 1 ≤ listMax
          ((specOf rows[i] (List.range header.tail.length)).map Prod.snd) :=
        hge _ (listMax_mem _ hne)
      omega
    · rw [if_neg hsp0]
      omega

theorem C9_positive_costs_witness :
    (0 : Int) ≤ 3 ∧ (1 : Int) ≤ ((0, 0, 1) : Nat × Nat × Int).2.2 :=
  ⟨by norm_num,
   C9_positive_costs 3 (by norm_num) [Cell.bad, Cell.bad] [[Cell.bad, Cell.int 1]]
     ([Cell.bad], [Cell.bad], [(0, 0, 1)]) (by rfl) (0, 0, 1) (by decide)⟩

/-- C10: when the threshold is at least 1, the default cost assigned to
each of a student's unspecified topics strictly exceeds every cost that
student explicitly specified, so the solver is never biased toward an
unranked topic of that student over a ranked one. -/
theorem C10_default_exceeds_specified (threshold : Int) (hth : 1 ≤ threshold)
    (header : List Cell) (rows : List (List Cell)) (students topics : List Cell)
    (prefs : List (Nat × Nat × Int))
    (hok : parse_csv threshold (header :: rows) = .ok (students, topics, prefs))
    (s : Nat) (hs : s < rows.length) (t t' : Nat) (c c' : Int)
    (hmem : (s, t, c) ∈ prefs) (hmem' : (s, t', c') ∈ prefs)
    (hcell : isIntCell rows[s][t + 1]? = true)
    (hcell' : rows[s][t' + 1]? = some Cell.empty) :
    c < c' := by
  obtain ⟨hrows, hout⟩ := (parse_csv_eq_ok_iff threshold header rows _).mp hok
  simp only [Prod.mk.injEq] at hout
  obtain ⟨-, -, hpref⟩ := hout
  have hget : ∀ b : Nat, ∀ cc : Int, (s, b, cc) ∈ prefs →
      (b, cc) ∈ merge_preferences threshold
        (specOf rows[s] (List.range header.tail.length))
        (unspecOf rows[s] (List.range header.tail.length)) := by
    intro b cc hm
    rw [hpref] at hm
    obtain ⟨i, hi, hx1, hx2⟩ := mem_buildPreferences.mp hm
    simp only [List.length_map] at hi
    simp only at hx1
    have hieq : i = s := by omega
    subst hieq
    simp only [List.getElem_map] at hx2
    exact hx2
  have hm1 := hget t c hmem
  have hm2 := hget t' c' hmem'
  rcases mem_merge_preferences.mp hm1 with hsp1 | ⟨hun1, -⟩
  · have hv1 : c ∈ (specOf rows[s] (List.range header.tail.length)).map Prod.snd :=
      List.mem_map.mpr ⟨(t, c), hsp1, rfl⟩
    rcases mem_merge_preferences.mp hm2 with hsp2 | ⟨-, heq2⟩
    · have hc2 := (mem_specOf.mp hsp2).2
      rw [hcell'] at hc2
      simp at hc2
    · rw [heq2]
      unfold preference_value_for_unspecified
      have hlen : 0 < (specOf rows[s] (List.range header.tail.length)).length :=
        List.length_pos.mpr (List.ne_nil_of_mem hsp1)
      rw [if_pos hlen]
      have hle : c ≤ listMax
          ((specOf rows[s] (List.range header.tail.length)).map Prod.snd) :=
        le_listMax _ c hv1
      omega
  · have hu := (mem_unspecOf.mp hun1).2
    rw [hu] at hcell
    simp [isIntCell] at hcell

theorem C10_default_exceeds_specified_witness :
    (1 : Int) ≤ 1 ∧ (1 : Int) < 2 :=
  ⟨by norm_num,
   C10_default_exceeds_specified 1 (by norm_num) [Cell.bad, Cell.bad, Cell.bad]
     [[Cell.bad, Cell.int 1, Cell.empty]] [Cell.bad] [Cell.bad, Cell.bad]
     [(0, 0, 1), (0, 1, 2)] (by rfl) 0 (by decide) 0 1 1 2
     (by decide) (by decide) (by rfl) (by rfl)⟩

example :
    parse_csv 3 [[Cell.bad, Cell.bad, Cell.bad, Cell.bad],
      [Cell.bad, Cell.int 1, Cell.int 2, Cell.int 3],
      [Cell.bad, Cell.empty, Cell.int 1, Cell.empty],
      [Cell.bad, Cell.int 2, Cell.empty, Cell.int 1]] =
    .ok ([Cell.bad, Cell.bad, Cell.bad], [Cell.bad, Cell.bad, Cell.bad],
      [(0, 0, 1), (0, 1, 2), (0, 2, 3),
       (1, 1, 1), (1, 0, 4), (1, 2, 4),
       (2, 0, 2), (2, 2, 1), (2, 1, 5)]) := by rfl
